import Mathlib

set_option maxHeartbeats 1000000

/-!
Shallow embedding of `src/fontdemo.py`: the `Bitmap`, `Glyph` and `Font`
(text-layout) classes, with Python list-indexing semantics made explicit.
A fallible operation (one that can raise `IndexError` / `AssertionError`,
or that depends on a fallible collaborator) returns `Option`.
-/

/-- Python list read index resolution: `l[i]` is valid iff `-len ≤ i < len`;
a negative index wraps to `len + i`.  Returns the effective non-negative
index, or `none` for `IndexError`. -/
def pyIdx (len : Nat) (i : Int) : Option Nat :=
  if 0 ≤ i ∧ i < (len : Int) then some i.toNat
  else if -(len : Int) ≤ i ∧ i < 0 then some ((len : Int) + i).toNat
  else none

/-- Read of `src.pixels[srcpixel]` where the counter is known non-negative:
`IndexError` (`none`) iff out of range. -/
def pyGetNat (l : List Bool) (i : Nat) : Option Bool :=
  if i < l.length then some (l.getD i false) else none

structure Bitmap where
  width : Int
  height : Int
  pixels : List Bool
deriving DecidableEq

/-- Constructor `Bitmap.__init__`: `pixels` defaults to
`[False] * (width * height)`;
`range` of a negative product is empty, so no size is rejected. -/
def Bitmap.init (width height : Int) (pixels : Option (List Bool)) : Bitmap :=
  { width := width, height := height,
    pixels := pixels.getD (List.replicate (width * height).toNat false) }

/-- A fresh blank canvas: `Bitmap(width, height)`. -/
def mkBitmap (width height : Int) : Bitmap := Bitmap.init width height none

/-- One iteration of the inner `bitblt` loop:
`self.pixels[dstpixel] = self.pixels[dstpixel] or src.pixels[srcpixel]`.
Python `or` short-circuits, so `src` is only read when the destination
pixel is `False`; the destination is read first. -/
def blitPix (pixels src : List Bool) (srcpixel : Nat) (dstpixel : Int) :
    Option (List Bool) :=
  match pyIdx pixels.length dstpixel with
  | none => none
  | some j =>
    match (if pixels.getD j false then some true else pyGetNat src srcpixel) with
    | none => none
    | some v => some (pixels.set j v)

/-- The inner `for sx in range(src.width)` loop of `bitblt`; returns the
updated pixel list together with the final `srcpixel` and `dstpixel`. -/
def blitRow : List Bool → List Bool → Nat → Int → Nat →
    Option (List Bool × Nat × Int)
  | pixels, _, srcpixel, dstpixel, 0 => some (pixels, srcpixel, dstpixel)
  | pixels, src, srcpixel, dstpixel, n + 1 =>
    match blitPix pixels src srcpixel dstpixel with
    | none => none
    | some px => blitRow px src (srcpixel + 1) (dstpixel + 1) n

/-- The outer `for sy in range(src.height)` loop of `bitblt`; after each row,
`dstpixel += row_offset`. -/
def blitRows : List Bool → List Bool → Nat → Int → Nat → Int → Nat →
    Option (List Bool)
  | pixels, _, _, _, _, _, 0 => some pixels
  | pixels, src, srcpixel, dstpixel, sw, row_offset, r + 1 =>
    match blitRow pixels src srcpixel dstpixel sw with
    | none => none
    | some (px, sp, dp) => blitRows px src sp (dp + row_offset) sw row_offset r

/-- Method `Bitmap.bitblt(src, x, y)`: `srcpixel = 0`,
`dstpixel = y*width + x`,
`row_offset = self.width - src.width`, then the two nested loops. -/
def Bitmap.bitblt (self src : Bitmap) (x y : Int) : Option Bitmap :=
  match blitRows self.pixels src.pixels 0 (y * self.width + x)
      src.width.toNat (self.width - src.width) src.height.toNat with
  | none => none
  | some px => some { self with pixels := px }

/-- Big-endian byte interpretation, as in int.from_bytes with byteorder
big. -/
def beVal (row : List (Fin 256)) : Nat :=
  row.foldl (fun acc b => acc * 256 + b.val) 0

/-- Fuel-driven recursion for `chunks`; `fuel = l.length` always suffices
because every step consumes at least one element. -/
def chunksFuel : Nat → List (Fin 256) → Nat → List (List (Fin 256))
  | 0, _, _ => []
  | fuel + 1, l, pitch =>
    if pitch = 0 ∨ l.length < pitch then []
    else l.take pitch :: chunksFuel fuel (l.drop pitch) pitch

/-- The row chunking performed by `zip(*[iter(buffer)] * pitch)`: complete
groups of `pitch` bytes, leftovers dropped; no groups at all when
`pitch = 0` (then `zip()` has no arguments). -/
def chunks (l : List (Fin 256)) (pitch : Nat) : List (List (Fin 256)) :=
  chunksFuel l.length l pitch

/-- One row of `unpack_mono_bitmap`: format the row's big-endian value as a
zero-padded binary string of `pitch*8` digits (digit `i` from the left is
bit `pitch*8 - 1 - i`), keep the first `width` characters, and `assert`
that exactly `width` characters remain. -/
def rowBits (row : List (Fin 256)) (width pitch : Nat) : Option (List Bool) :=
  let bin_str :=
    ((List.range (pitch * 8)).map
      (fun i => (beVal row).testBit (pitch * 8 - 1 - i))).take width
  if bin_str.length = width then some bin_str else none

/-- The row loop of `unpack_mono_bitmap`, extending `data` row by row. -/
def unpackRows : List (List (Fin 256)) → Nat → Nat → Option (List Bool)
  | [], _, _ => some []
  | row :: rest, width, pitch =>
    match rowBits row width pitch with
    | none => none
    | some bits =>
      match unpackRows rest width pitch with
      | none => none
      | some data => some (bits ++ data)

/-- Static method `Glyph.unpack_mono_bitmap`, with the `assert`
statements modelled as
failure (`none`): buffer length must be `rows * pitch`, each row must keep
exactly `width` bits, and the result must have `rows * width` entries. -/
def unpack_mono_bitmap (buffer : List (Fin 256)) (width rows pitch : Nat) :
    Option (List Bool) :=
  if buffer.length = rows * pitch then
    match unpackRows (chunks buffer pitch) width pitch with
    | none => none
    | some data => if data.length = rows * width then some data else none
  else none

structure Glyph where
  bitmap : Bitmap
  top : Int
  descent : Int
  ascent : Int
  advance_width : Int
deriving DecidableEq

/-- Constructor `Glyph.__init__`: wraps the pixels in a `Bitmap` and
derives the
vertical metrics from `top` and the bitmap height. -/
def Glyph.make (pixels : List Bool) (width height top advance_width : Int) :
    Glyph :=
  let bitmap := Bitmap.init width height (some pixels)
  let descent := max 0 (bitmap.height - top)
  let ascent := max 0 (max top bitmap.height - descent)
  { bitmap := bitmap, top := top, descent := descent, ascent := ascent,
    advance_width := advance_width }

/-- The raw data FreeType's glyph slot hands over after `load_char`: the
packed monochrome bitmap with its declared `width`/`rows`/`pitch`, the
`bitmap_top` offset, and the 26.6 fixed-point advance. -/
structure GlyphSlot where
  buffer : List (Fin 256)
  width : Nat
  rows : Nat
  pitch : Nat
  bitmap_top : Int
  advance_x : Int

/-- The external FreeType face, as the capability set the core consumes:
per-character glyph loading (`none` models `GlyphUnavailable`) and the raw
26.6 fixed-point kerning lookup `get_kerning(prev, char).x`. -/
structure Face where
  glyphs : Char → Option GlyphSlot
  kern : Option Char → Char → Int

/-- Static method `Glyph.from_glyphslot`: unpack the packed bitmap and
build the `Glyph`,
converting the 26.6 advance with floor division by 64. -/
def Glyph.from_glyphslot (slot : GlyphSlot) : Option Glyph :=
  match unpack_mono_bitmap slot.buffer slot.width slot.rows slot.pitch with
  | none => none
  | some pixels =>
    some (Glyph.make pixels slot.width slot.rows slot.bitmap_top
      (slot.advance_x.fdiv 64))

/-- Method `Font.glyph_for_character`. -/
def glyph_for_character (f : Face) (c : Char) : Option Glyph :=
  match f.glyphs c with
  | none => none
  | some slot => Glyph.from_glyphslot slot

/-- Method `Font.kerning_offset`:
`self.face.get_kerning(previous_char, char).x // 64`
(Python `//` is floor division). -/
def kerning_offset (f : Face) (previous_char : Option Char) (c : Char) : Int :=
  (f.kern previous_char c).fdiv 64

/-- The character loop of `Font.text_dimensions`, carrying the running
`width`, `max_ascent`, `max_descent` and `previous_char`; at the end it
returns `(width, max_ascent + max_descent, max_descent)`. -/
def textDimLoop (f : Face) : List Char → Int → Int → Int → Option Char →
    Option (Int × Int × Int)
  | [], width, max_ascent, max_descent, _ =>
    some (width, max_ascent + max_descent, max_descent)
  | c :: rest, width, max_ascent, max_descent, previous_char =>
    match glyph_for_character f c with
    | none => none
    | some glyph =>
      let max_ascent := max max_ascent glyph.ascent
      let max_descent := max max_descent glyph.descent
      let kerning_x := kerning_offset f previous_char c
      textDimLoop f rest
        (width + max (glyph.advance_width + kerning_x)
          (glyph.bitmap.width + kerning_x))
        max_ascent max_descent (some c)

/-- Method `Font.text_dimensions`. -/
def text_dimensions (f : Face) (text : List Char) : Option (Int × Int × Int) :=
  textDimLoop f text 0 0 0 none

/-- The character loop of `Font.render_text`: `x += kerning_x`, compute `y`,
blit the glyph bitmap, then `x += glyph.advance_width`. -/
def renderLoop (f : Face) (height baseline : Int) : List Char → Int →
    Option Char → Bitmap → Option Bitmap
  | [], _, _, outbuffer => some outbuffer
  | c :: rest, x, previous_char, outbuffer =>
    match glyph_for_character f c with
    | none => none
    | some glyph =>
      let x := x + kerning_offset f previous_char c
      let y := height - glyph.ascent - baseline
      match outbuffer.bitblt glyph.bitmap x y with
      | none => none
      | some ob => renderLoop f height baseline rest (x + glyph.advance_width)
          (some c) ob

/-- Method `Font.render_text`: when any of `width`, `height`, `baseline`
is `None`,
all three are recomputed with `text_dimensions`; then a fresh canvas is
allocated and the glyphs are blitted left to right. -/
def render_text (f : Face) (text : List Char)
    (width height baseline : Option Int) : Option Bitmap :=
  match width, height, baseline with
  | some w, some h, some b => renderLoop f h b text 0 none (mkBitmap w h)
  | _, _, _ =>
    match text_dimensions f text with
    | none => none
    | some (w, h, b) => renderLoop f h b text 0 none (mkBitmap w h)

/-- The `previous_char = char` threading of the render loop: the previous
character in effect after consuming `text`, starting from `prev`. -/
def lastPrev (prev : Option Char) : List Char → Option Char
  | [] => prev
  | c :: rest => lastPrev (some c) rest

/-- The accumulated pen advance of the render loop over `text`, entered
with previous character `prev`: the sum, character by character, of the
two cursor updates `x += kerning_x` and `x += glyph.advance_width`;
`none` when some glyph fails to load. -/
def penAdvance (f : Face) : Option Char → List Char → Option Int
  | _, [] => some 0
  | prev, c :: rest =>
    match glyph_for_character f c with
    | none => none
    | some glyph =>
      match penAdvance f (some c) rest with
      | none => none
      | some s =>
        some (kerning_offset f prev c + glyph.advance_width + s)

/-- Well-formedness of a bitmap, the invariant stated by the spec's data
model: non-negative dimensions and a pixel buffer of exactly
`width * height` booleans. -/
def Bitmap.WF (b : Bitmap) : Prop :=
  0 ≤ b.width ∧ 0 ≤ b.height ∧ b.pixels.length = (b.width * b.height).toNat

/-- The value OR-ed into flat index `j` by `r` successive blit rows: row `t`
reads source pixels from `s + t*sw` and covers the `sw` destination indices
starting at `d + t*stride`. -/
def coveredVal (src : List Bool) (sw : Nat) (stride : Int) :
    Nat → Nat → Int → Nat → Bool
  | 0, _, _, _ => false
  | r + 1, s, d, j =>
    (decide (d.toNat ≤ j ∧ j < d.toNat + sw) &&
      src.getD (s + (j - d.toNat)) false) ||
    coveredVal src sw stride r (s + sw) (d + stride) j

/-- The relation that a pixel list `q` extends `p`: same length, and every
pixel already set in `p` is still set in `q`.  Blitting only ever ORs
values in, so every intermediate pixel list of a blit extends the earlier
ones. -/
def Extends (p q : List Bool) : Prop :=
  q.length = p.length ∧ ∀ j : Nat, p.getD j false = true → q.getD j false = true

/-- A demo face for concrete instantiations: every character maps to the
4-wide, 1-row glyph packed as the single byte `0b10110000`, with
`bitmap_top = 1` and a 26.6 advance of 320 (5 pixels); no kerning. -/
def demoFace : Face :=
  { glyphs := fun _ => some ⟨[176], 4, 1, 1, 1, 320⟩,
    kern := fun _ _ => 0 }

/-- The glyph `demoFace` yields for every character. -/
def demoGlyph : Glyph := Glyph.make [true, false, true, true] 4 1 1 5

/-- A demo face with kerning: every glyph is empty (0 by 0 bitmap) with a
26.6 advance of 640 (10 pixels), and the kerning after the character A is
-128 (that is, -2 pixels). -/
def kernFace : Face :=
  { glyphs := fun _ => some ⟨[], 0, 0, 0, 0, 640⟩,
    kern := fun p _ => if p = some (Char.ofNat 65) then -128 else 0 }

/-- The glyph `kernFace` yields for every character. -/
def kernGlyph : Glyph := Glyph.make [] 0 0 0 10

theorem getD_set_eq (l : List Bool) (i j : Nat) (v : Bool) :
    (l.set i v).getD j false =
      if j = i ∧ i < l.length then v else l.getD j false := by
  by_cases h : j = i
  · subst h
    by_cases hl : j < l.length
    · simp [List.getD_eq_getElem?_getD, List.getElem?_set_self hl, hl]
    · rw [List.set_eq_of_length_le (by omega)]
      simp [hl]
  · rw [List.getD_eq_getElem?_getD, List.getD_eq_getElem?_getD,
      List.getElem?_set_ne (fun hij => h hij.symm)]
    simp [h]

theorem set_getD_self (l : List Bool) (j : Nat) (hj : j < l.length) :
    l.set j (l.getD j false) = l := by
  apply List.ext_getElem?
  intro n
  by_cases h : j = n
  · subst h
    simp [List.getElem?_set_self hj, List.getD_eq_getElem?_getD,
      List.getElem?_eq_getElem hj]
  · rw [List.getElem?_set_ne h]

/-- Evaluating `blitPix` at a valid non-negative destination index with
the source
pixel in range: it writes `old ∨ src` at the destination. -/
theorem blitPix_spec (pixels src : List Bool) (s : Nat) (d : Int)
    (hd0 : 0 ≤ d) (hd1 : d < (pixels.length : Int)) (hs : s < src.length) :
    blitPix pixels src s d =
      some (pixels.set d.toNat
        (pixels.getD d.toNat false || src.getD s false)) := by
  unfold blitPix pyIdx pyGetNat
  rw [if_pos ⟨hd0, hd1⟩]
  dsimp only
  by_cases h : pixels.getD d.toNat false
  · rw [if_pos h, h]
    simp
  · rw [if_neg h, if_pos hs]
    rw [Bool.not_eq_true] at h
    rw [h]
    simp

/-- One full inner row: when the `n` destination indices `d, …, d+n-1` and
source indices `s, …, s+n-1` are in range, the row loop succeeds and ORs
the source window into the pixels. -/
theorem blitRow_spec (src : List Bool) (n : Nat) :
    ∀ (pixels : List Bool) (s : Nat) (d : Int), 0 ≤ d →
      d.toNat + n ≤ pixels.length → s + n ≤ src.length →
      ∃ pl, blitRow pixels src s d n = some (pl, s + n, d + n) ∧
        pl.length = pixels.length ∧
        ∀ j : Nat, pl.getD j false =
          (pixels.getD j false ||
            (decide (d.toNat ≤ j ∧ j < d.toNat + n) &&
              src.getD (s + (j - d.toNat)) false)) := by
  induction n with
  | zero =>
    intro pixels s d hd0 _ _
    exact ⟨pixels, by simp [blitRow], rfl, fun j => by simp⟩
  | succ n ih =>
    intro pixels s d hd0 hdl hsl
    have hd1 : d < (pixels.length : Int) := by omega
    have hs : s < src.length := by omega
    have hpix := blitPix_spec pixels src s d hd0 hd1 hs
    have htn : (d + 1).toNat = d.toNat + 1 := by omega
    obtain ⟨pl, hrun, hlen, hval⟩ :=
      ih (pixels.set d.toNat (pixels.getD d.toNat false || src.getD s false))
        (s + 1) (d + 1) (by omega) (by simp only [List.length_set]; omega)
        (by omega)
    have hs1 : s + 1 + n = s + (n + 1) := by omega
    have hd2 : d + 1 + n = d + (n + 1 : Nat) := by push_cast; ring
    refine ⟨pl, ?_, by simp only [List.length_set] at hlen; exact hlen, ?_⟩
    · simp only [blitRow, hpix]
      rw [hrun, hs1, hd2]
    · intro j
      rw [hval j, getD_set_eq, htn]
      by_cases hj : j = d.toNat
      · subst hj
        rw [if_pos ⟨rfl, by omega⟩]
        rw [decide_eq_false (show ¬(d.toNat + 1 ≤ d.toNat ∧
          d.toNat < d.toNat + 1 + n) by omega)]
        rw [decide_eq_true (show d.toNat ≤ d.toNat ∧
          d.toNat < d.toNat + (n + 1) by omega)]
        simp
      · rw [if_neg (fun hc => hj hc.1)]
        by_cases hw : d.toNat + 1 ≤ j ∧ j < d.toNat + 1 + n
        · have hidx : s + 1 + (j - (d.toNat + 1)) = s + (j - d.toNat) := by
            omega
          rw [decide_eq_true hw,
            decide_eq_true (show d.toNat ≤ j ∧ j < d.toNat + (n + 1) by omega),
            hidx]
        · rw [decide_eq_false hw,
            decide_eq_false (show ¬(d.toNat ≤ j ∧ j < d.toNat + (n + 1)) by
              omega)]
          simp

/-- The outer row loop: if every row's destination window is in range and
the source rows are in range, `blitRows` succeeds and each flat index ends
up as its old value OR the accumulated source cover. -/
theorem blitRows_spec (src : List Bool) (sw : Nat) (ro : Int) (r : Nat) :
    ∀ (pixels : List Bool) (s : Nat) (d : Int),
      (∀ t : Nat, t < r → 0 ≤ d + t * (sw + ro) ∧
        (d + t * (sw + ro)).toNat + sw ≤ pixels.length) →
      s + r * sw ≤ src.length →
      ∃ pl, blitRows pixels src s d sw ro r = some pl ∧
        pl.length = pixels.length ∧
        ∀ j : Nat, pl.getD j false =
          (pixels.getD j false || coveredVal src sw ((sw : Int) + ro) r s d j) := by
  induction r with
  | zero =>
    intro pixels s d _ _
    exact ⟨pixels, rfl, rfl, fun j => by simp [coveredVal]⟩
  | succ r ih =>
    intro pixels s d hrows hs
    have h0 := hrows 0 (by omega)
    simp only [Nat.cast_zero, zero_mul, add_zero] at h0
    rw [Nat.succ_mul] at hs
    obtain ⟨prow, hrow, hrowlen, hrowval⟩ :=
      blitRow_spec src sw pixels s d h0.1 h0.2 (by omega)
    have hcond1 : ∀ t : Nat, t < r → 0 ≤ d + sw + ro + t * (sw + ro) ∧
        (d + sw + ro + t * (sw + ro)).toNat + sw ≤ prow.length := by
      intro t ht
      have := hrows (t + 1) (by omega)
      have harith : d + (sw : Int) + ro + (t : Int) * ((sw : Int) + ro) =
          d + ((t : Nat) + 1 : Nat) * ((sw : Int) + ro) := by
        push_cast
        ring
      rw [hrowlen, harith]
      exact this
    have hcond2 : s + sw + r * sw ≤ src.length := by omega
    obtain ⟨pl, hrun, hlen, hval⟩ := ih prow (s + sw) (d + sw + ro) hcond1 hcond2
    refine ⟨pl, ?_, by rw [hlen, hrowlen], ?_⟩
    · simp only [blitRows, hrow]
      exact hrun
    · intro j
      rw [hval j, hrowval j, coveredVal, Bool.or_assoc]
      have : d + (sw : Int) + ro = d + ((sw : Int) + ro) := by ring
      rw [this]

/-- A destination row window `[Y*W + X, Y*W + X + SW)` contains the flat
index of `(cx, cy)` exactly when `cy` is that row and `cx` is in the
window's columns (valid because a window never spills into the next row:
`X + SW ≤ W`). -/
theorem row_window_iff (W SW X Y cx cy : Nat) (hcx : cx < W)
    (hXS : X + SW ≤ W) :
    (Y * W + X ≤ cy * W + cx ∧ cy * W + cx < Y * W + X + SW) ↔
      (cy = Y ∧ X ≤ cx ∧ cx < X + SW) := by
  constructor
  · rintro ⟨h1, h2⟩
    rcases Nat.lt_trichotomy cy Y with h | h | h
    · exfalso
      have hlt : cy * W + cx < Y * W + X := by
        calc cy * W + cx < cy * W + W := by omega
          _ = (cy + 1) * W := by ring
          _ ≤ Y * W := mul_le_mul_right' (by omega) W
          _ ≤ Y * W + X := by omega
      omega
    · subst h
      exact ⟨rfl, by omega, by omega⟩
    · exfalso
      have hle : Y * W + X + SW ≤ cy * W + cx := by
        calc Y * W + X + SW ≤ Y * W + W := by omega
          _ = (Y + 1) * W := by ring
          _ ≤ cy * W := mul_le_mul_right' (by omega) W
          _ ≤ cy * W + cx := by omega
      omega
  · rintro ⟨rfl, h1, h2⟩
    omega

/-- Reading `coveredVal` in coordinates: with row stride `W`, source row
width `SW`,
start of cover at column `X` of row `Y`, the value OR-ed into pixel
`(cx, cy)` is the corresponding source pixel when `(cx, cy)` lies in the
covered rectangle, and `false` otherwise. -/
theorem coveredVal_coord (src : List Bool) (SW W : Nat) :
    ∀ (r s Y X cx cy : Nat), X + SW ≤ W → cx < W →
      coveredVal src SW (W : Int) r s ((Y * W + X : Nat) : Int) (cy * W + cx) =
        (if X ≤ cx ∧ cx < X + SW ∧ Y ≤ cy ∧ cy < Y + r
         then src.getD (s + (cy - Y) * SW + (cx - X)) false
         else false) := by
  intro r
  induction r with
  | zero =>
    intro s Y X cx cy hXS hcx
    rw [coveredVal, if_neg (by omega)]
  | succ r ih =>
    intro s Y X cx cy hXS hcx
    rw [coveredVal]
    have hd : ((Y * W + X : Nat) : Int).toNat = Y * W + X :=
      Int.toNat_natCast _
    rw [hd]
    have hstride : ((Y * W + X : Nat) : Int) + (W : Int) =
        (((Y + 1) * W + X : Nat) : Int) := by
      push_cast
      ring
    rw [hstride, ih (s + SW) (Y + 1) X cx cy hXS hcx]
    by_cases hhead : cy = Y ∧ X ≤ cx ∧ cx < X + SW
    · rw [decide_eq_true ((row_window_iff W SW X Y cx cy hcx hXS).mpr hhead)]
      obtain ⟨rfl, hx1, hx2⟩ := hhead
      rw [if_neg (by omega), if_pos (by omega)]
      have hidx : cy * W + cx - (cy * W + X) = cx - X := by omega
      simp [hidx, Nat.sub_self]
    · rw [decide_eq_false
        (fun hcond => hhead ((row_window_iff W SW X Y cx cy hcx hXS).mp hcond))]
      simp only [Bool.false_and, Bool.false_or]
      by_cases hcond2 : X ≤ cx ∧ cx < X + SW ∧ Y + 1 ≤ cy ∧ cy < Y + 1 + r
      · rw [if_pos hcond2, if_pos (by omega)]
        have hmul : (cy - Y) * SW = (cy - (Y + 1)) * SW + SW := by
          have h1 : cy - Y = (cy - (Y + 1)) + 1 := by omega
          rw [h1, Nat.succ_mul]
        rw [hmul]
        congr 1
        ring
      · rw [if_neg hcond2, if_neg (by omega)]

/-- Unfolding `bitblt` to its row loop. -/
theorem bitblt_eq (self src : Bitmap) (x y : Int) :
    self.bitblt src x y =
      (blitRows self.pixels src.pixels 0 (y * self.width + x)
        src.width.toNat (self.width - src.width) src.height.toNat).map
        (fun px => { self with pixels := px }) := by
  unfold Bitmap.bitblt
  cases blitRows self.pixels src.pixels 0 (y * self.width + x)
      src.width.toNat (self.width - src.width) src.height.toNat with
  | none => rfl
  | some px => rfl

/-- C7. Fully in-bounds compositing: `bitblt` succeeds, keeps the canvas's
width, height and pixel count, sets each covered destination pixel
`(x+sx, y+sy)` to its old value OR the source pixel `(sx, sy)`, and leaves
every destination pixel outside the covered rectangle unchanged. -/
theorem bitblt_in_bounds_frame (dest src : Bitmap) (x y : Int)
    (hd : dest.WF) (hs : src.WF)
    (hx0 : 0 ≤ x) (hx1 : x + src.width ≤ dest.width)
    (hy0 : 0 ≤ y) (hy1 : y + src.height ≤ dest.height) :
    ∃ d2, dest.bitblt src x y = some d2 ∧ d2.width = dest.width ∧
      d2.height = dest.height ∧ d2.pixels.length = dest.pixels.length ∧
      (∀ sx sy : Nat, sx < src.width.toNat → sy < src.height.toNat →
        d2.pixels.getD
            ((y.toNat + sy) * dest.width.toNat + (x.toNat + sx)) false =
          (dest.pixels.getD
              ((y.toNat + sy) * dest.width.toNat + (x.toNat + sx)) false ||
            src.pixels.getD (sy * src.width.toNat + sx) false)) ∧
      (∀ cx cy : Nat, cx < dest.width.toNat → cy < dest.height.toNat →
        ¬(x.toNat ≤ cx ∧ cx < x.toNat + src.width.toNat ∧
          y.toNat ≤ cy ∧ cy < y.toNat + src.height.toNat) →
        d2.pixels.getD (cy * dest.width.toNat + cx) false =
          dest.pixels.getD (cy * dest.width.toNat + cx) false) := by
  obtain ⟨hw0, hh0, hlen⟩ := hd
  obtain ⟨hsw0, hsh0, hslen⟩ := hs
  set W := dest.width.toNat with hW
  set H := dest.height.toNat with hH
  set SW := src.width.toNat with hSW
  set SH := src.height.toNat with hSH
  set X := x.toNat with hX
  set Y := y.toNat with hY
  have hWc : dest.width = (W : Int) := by omega
  have hHc : dest.height = (H : Int) := by omega
  have hSWc : src.width = (SW : Int) := by omega
  have hSHc : src.height = (SH : Int) := by omega
  have hXc : x = (X : Int) := by omega
  have hYc : y = (Y : Int) := by omega
  have hlen' : dest.pixels.length = W * H := by
    rw [hlen, hWc, hHc, ← Nat.cast_mul, Int.toNat_natCast]
  have hslen' : src.pixels.length = SW * SH := by
    rw [hslen, hSWc, hSHc, ← Nat.cast_mul, Int.toNat_natCast]
  have hXW : X + SW ≤ W := by omega
  have hYH : Y + SH ≤ H := by omega
  have hstride : (SW : Int) + (dest.width - src.width) = (W : Int) := by
    rw [hWc, hSWc]
    ring
  have hd_eq : y * dest.width + x = ((Y * W + X : Nat) : Int) := by
    rw [hWc, hXc, hYc]
    push_cast
    ring
  have hdt : ∀ t : Nat,
      ((Y * W + X : Nat) : Int) + (t : Int) * (W : Int) =
        (((Y + t) * W + X : Nat) : Int) := by
    intro t
    push_cast
    ring
  have hrowcond : ∀ t : Nat, t < SH →
      0 ≤ y * dest.width + x + t * ((SW : Int) + (dest.width - src.width)) ∧
      (y * dest.width + x +
        t * ((SW : Int) + (dest.width - src.width))).toNat + SW ≤
        dest.pixels.length := by
    intro t ht
    rw [hstride, hd_eq, hdt t, Int.toNat_natCast, hlen']
    refine ⟨Int.natCast_nonneg _, ?_⟩
    calc (Y + t) * W + X + SW ≤ (Y + t) * W + W := by omega
      _ = ((Y + t) + 1) * W := by ring
      _ ≤ H * W := mul_le_mul_right' (by omega) W
      _ = W * H := by ring
  have hsrccond : 0 + SH * SW ≤ src.pixels.length := by
    rw [hslen', Nat.mul_comm SW SH, Nat.zero_add]
  obtain ⟨pl, hrun, hplen, hpval⟩ :=
    blitRows_spec src.pixels SW (dest.width - src.width) SH dest.pixels 0
      (y * dest.width + x) hrowcond hsrccond
  have hcov : ∀ j : Nat, pl.getD j false = (dest.pixels.getD j false ||
      coveredVal src.pixels SW (W : Int) SH 0 ((Y * W + X : Nat) : Int) j) := by
    intro j
    rw [hpval j, hstride, hd_eq]
  refine ⟨{ dest with pixels := pl }, ?_, rfl, rfl, hplen, ?_, ?_⟩
  · rw [bitblt_eq, hrun]
    rfl
  · intro sx sy hsx hsy
    show pl.getD ((Y + sy) * W + (X + sx)) false = _
    rw [hcov ((Y + sy) * W + (X + sx)),
      coveredVal_coord src.pixels SW W SH 0 Y X (X + sx) (Y + sy) hXW
        (by omega)]
    rw [if_pos (by omega)]
    have hidx : 0 + ((Y + sy) - Y) * SW + ((X + sx) - X) = sy * SW + sx := by
      have h1 : (Y + sy) - Y = sy := by omega
      have h2 : (X + sx) - X = sx := by omega
      rw [h1, h2, Nat.zero_add]
    rw [hidx]
  · intro cx cy hcxW hcyH hnc
    show pl.getD (cy * W + cx) false = _
    rw [hcov (cy * W + cx),
      coveredVal_coord src.pixels SW W SH 0 Y X cx cy hXW hcxW,
      if_neg hnc, Bool.or_false]

theorem Extends.refl (p : List Bool) : Extends p p := ⟨rfl, fun _ h => h⟩

theorem Extends.trans {p q r : List Bool} (h1 : Extends p q)
    (h2 : Extends q r) : Extends p r :=
  ⟨h2.1.trans h1.1, fun j hj => h2.2 j (h1.2 j hj)⟩

theorem pyIdx_lt (len : Nat) (i : Int) (j : Nat) (h : pyIdx len i = some j) :
    j < len := by
  unfold pyIdx at h
  by_cases h1 : 0 ≤ i ∧ i < (len : Int)
  · rw [if_pos h1] at h
    injection h with h
    omega
  · rw [if_neg h1] at h
    by_cases h2 : -(len : Int) ≤ i ∧ i < 0
    · rw [if_pos h2] at h
      injection h with h
      omega
    · rw [if_neg h2] at h
      exact absurd h (by simp)

/-- Characterization of any successful `blitPix` step. -/
theorem blitPix_some {pixels src : List Bool} {s : Nat} {d : Int}
    {pl : List Bool} (h : blitPix pixels src s d = some pl) :
    ∃ j, pyIdx pixels.length d = some j ∧ j < pixels.length ∧
      ∃ v : Bool, pl = pixels.set j v ∧
        (pixels.getD j false || v) = v ∧
        (pixels.getD j false = false → s < src.length ∧
          v = src.getD s false) := by
  unfold blitPix at h
  cases hidx : pyIdx pixels.length d with
  | none => rw [hidx] at h; exact absurd h (by simp)
  | some j =>
    rw [hidx] at h
    dsimp only at h
    refine ⟨j, rfl, pyIdx_lt _ _ _ hidx, ?_⟩
    by_cases hpj : pixels.getD j false
    · rw [if_pos hpj] at h
      injection h with h
      exact ⟨true, h.symm, by simp [hpj], fun hc => by rw [hpj] at hc; cases hc⟩
    · rw [if_neg hpj] at h
      rw [Bool.not_eq_true] at hpj
      unfold pyGetNat at h
      by_cases hsl : s < src.length
      · rw [if_pos hsl] at h
        injection h with h
        exact ⟨src.getD s false, h.symm, by rw [hpj]; simp,
          fun _ => ⟨hsl, rfl⟩⟩
      · rw [if_neg hsl] at h
        exact absurd h (by simp)

theorem blitPix_mono {pixels src : List Bool} {s : Nat} {d : Int}
    {pl : List Bool} (h : blitPix pixels src s d = some pl) :
    Extends pixels pl := by
  obtain ⟨j, _, hjlt, v, hpl, hor, _⟩ := blitPix_some h
  subst hpl
  refine ⟨by simp, fun j' hj' => ?_⟩
  rw [getD_set_eq]
  by_cases hc : j' = j ∧ j < pixels.length
  · rw [if_pos hc]
    obtain ⟨rfl, _⟩ := hc
    rw [hj'] at hor
    simpa using hor
  · rw [if_neg hc]
    exact hj'

/-- Running a single `blitPix` step again on any extension of its own
output is the identity. -/
theorem blitPix_fix {pixels src : List Bool} {s : Nat} {d : Int}
    {pl q : List Bool} (h : blitPix pixels src s d = some pl)
    (hq : Extends pl q) : blitPix q src s d = some q := by
  obtain ⟨j, hidx, hjlt, v, hpl, hor, hread⟩ := blitPix_some h
  have hqlen : q.length = pixels.length := by
    rw [hq.1, hpl]
    simp
  unfold blitPix
  rw [hqlen, hidx]
  dsimp only
  by_cases hqj : q.getD j false
  · rw [if_pos hqj]
    dsimp only
    rw [← hqj, set_getD_self q j (by omega)]
  · rw [if_neg hqj]
    rw [Bool.not_eq_true] at hqj
    have hplj : pl.getD j false = v := by
      rw [hpl, getD_set_eq, if_pos ⟨rfl, hjlt⟩]
    have hvf : v = false := by
      by_contra hv
      rw [Bool.not_eq_false] at hv
      have := hq.2 j (by rw [hplj, hv])
      rw [hqj] at this
      cases this
    have hpixj : pixels.getD j false = false := by
      by_contra hp
      rw [Bool.not_eq_false] at hp
      rw [hp, hvf] at hor
      cases hor
    obtain ⟨hsl, hv⟩ := hread hpixj
    unfold pyGetNat
    rw [if_pos hsl]
    dsimp only
    have hval : src.getD s false = q.getD j false := by
      rw [← hv, hvf, hqj]
    rw [hval, set_getD_self q j (by omega)]

theorem blitRow_mono {src : List Bool} (n : Nat) :
    ∀ {pixels : List Bool} {s : Nat} {d : Int} {pl : List Bool} {a : Nat}
      {b : Int}, blitRow pixels src s d n = some (pl, a, b) →
      Extends pixels pl := by
  induction n with
  | zero =>
    intro pixels s d pl a b h
    rw [blitRow] at h
    injection h with h
    rw [(Prod.mk.injEq _ _ _ _).mp h |>.1]
    exact Extends.refl pl
  | succ n ih =>
    intro pixels s d pl a b h
    rw [blitRow] at h
    cases hpix : blitPix pixels src s d with
    | none => rw [hpix] at h; exact absurd h (by simp)
    | some px =>
      rw [hpix] at h
      exact (blitPix_mono hpix).trans (ih h)

/-- Running a full inner row again on any extension of its own output is
the identity. -/
theorem blitRow_fix {src : List Bool} (n : Nat) :
    ∀ {pixels : List Bool} {s : Nat} {d : Int} {pl : List Bool} {a : Nat}
      {b : Int} {q : List Bool}, blitRow pixels src s d n = some (pl, a, b) →
      Extends pl q → blitRow q src s d n = some (q, a, b) := by
  induction n with
  | zero =>
    intro pixels s d pl a b q h hq
    rw [blitRow] at h ⊢
    injection h with h
    have h3 := (Prod.mk.injEq _ _ _ _).mp h
    rw [h3.2]
  | succ n ih =>
    intro pixels s d pl a b q h hq
    rw [blitRow] at h ⊢
    cases hpix : blitPix pixels src s d with
    | none => rw [hpix] at h; exact absurd h (by simp)
    | some px =>
      rw [hpix] at h
      have hext : Extends px pl := blitRow_mono n h
      rw [blitPix_fix hpix (hext.trans hq)]
      exact ih h hq

theorem blitRows_mono {src : List Bool} {sw : Nat} {ro : Int} (r : Nat) :
    ∀ {pixels : List Bool} {s : Nat} {d : Int} {pl : List Bool},
      blitRows pixels src s d sw ro r = some pl → Extends pixels pl := by
  induction r with
  | zero =>
    intro pixels s d pl h
    rw [blitRows] at h
    injection h with h
    rw [h]
    exact Extends.refl pl
  | succ r ih =>
    intro pixels s d pl h
    rw [blitRows] at h
    cases hrow : blitRow pixels src s d sw with
    | none => rw [hrow] at h; exact absurd h (by simp)
    | some t =>
      obtain ⟨px, sp, dp⟩ := t
      rw [hrow] at h
      exact (blitRow_mono sw hrow).trans (ih h)

/-- Running the whole row loop again on any extension of its own output is
the identity. -/
theorem blitRows_fix {src : List Bool} {sw : Nat} {ro : Int} (r : Nat) :
    ∀ {pixels : List Bool} {s : Nat} {d : Int} {pl q : List Bool},
      blitRows pixels src s d sw ro r = some pl → Extends pl q →
      blitRows q src s d sw ro r = some q := by
  induction r with
  | zero =>
    intro pixels s d pl q h hq
    rw [blitRows]
  | succ r ih =>
    intro pixels s d pl q h hq
    rw [blitRows] at h ⊢
    cases hrow : blitRow pixels src s d sw with
    | none => rw [hrow] at h; exact absurd h (by simp)
    | some t =>
      obtain ⟨px, sp, dp⟩ := t
      rw [hrow] at h
      have hext : Extends px pl := blitRows_mono r h
      rw [blitRow_fix sw hrow (hext.trans hq)]
      exact ih h hq

/-- Any successful `bitblt` keeps the canvas's width, height and pixel
count (only pixel values change). -/
theorem bitblt_dims {dest src : Bitmap} {x y : Int} {d2 : Bitmap}
    (h : dest.bitblt src x y = some d2) :
    d2.width = dest.width ∧ d2.height = dest.height ∧
      d2.pixels.length = dest.pixels.length := by
  rw [bitblt_eq] at h
  cases hrun : blitRows dest.pixels src.pixels 0 (y * dest.width + x)
      src.width.toNat (dest.width - src.width) src.height.toNat with
  | none => rw [hrun] at h; exact absurd h (by simp)
  | some pl =>
    rw [hrun] at h
    dsimp only [Option.map] at h
    injection h with h
    subst h
    exact ⟨rfl, rfl, (blitRows_mono _ hrun).1⟩

/-- With an empty inner loop (`sw = 0`) the row loop only moves the
counters and never touches a pixel. -/
theorem blitRows_sw_zero {src : List Bool} {ro : Int} (r : Nat) :
    ∀ (pixels : List Bool) (s : Nat) (d : Int),
      blitRows pixels src s d 0 ro r = some pixels := by
  induction r with
  | zero => intro pixels s d; rw [blitRows]
  | succ r ih =>
    intro pixels s d
    rw [blitRows, blitRow]
    exact ih pixels s (d + ro)

/-- Pointwise equality of boolean lists (with default `false`) implies
equality. -/
theorem getD_ext {l1 l2 : List Bool} (hlen : l1.length = l2.length)
    (h : ∀ j, j < l1.length → l1.getD j false = l2.getD j false) :
    l1 = l2 := by
  refine List.ext_getElem hlen (fun i h1 h2 => ?_)
  have hh := h i h1
  rw [List.getD_eq_getElem?_getD, List.getD_eq_getElem?_getD,
    List.getElem?_eq_getElem h1, List.getElem?_eq_getElem h2] at hh
  exact hh

/-- A successful row unpack: when `width ≤ pitch*8`, `rowBits` yields
exactly `width` bits, bit `i` being bit `pitch*8 - 1 - i` of the row's
big-endian value. -/
theorem rowBits_some (row : List (Fin 256)) (width pitch : Nat)
    (hw : width ≤ pitch * 8) :
    ∃ bits, rowBits row width pitch = some bits ∧ bits.length = width ∧
      ∀ i, i < width → bits.getD i false =
        (beVal row).testBit (pitch * 8 - 1 - i) := by
  unfold rowBits
  have hlen : (((List.range (pitch * 8)).map
      (fun i => (beVal row).testBit (pitch * 8 - 1 - i))).take width).length =
      width := by
    simp
    omega
  rw [if_pos hlen]
  refine ⟨_, rfl, hlen, fun i hi => ?_⟩
  rw [List.getD_eq_getElem?_getD, List.getElem?_take_of_lt hi,
    List.getElem?_map, List.getElem?_range (by omega)]
  rfl

/-- The per-row `assert len(bin_str) == width` fires when the row keeps
fewer than `width` bits. -/
theorem rowBits_none (row : List (Fin 256)) (width pitch : Nat)
    (hw : pitch * 8 < width) : rowBits row width pitch = none := by
  unfold rowBits
  rw [if_neg]
  simp
  omega

/-- Unpacking a list of rows, each keeping exactly `width` bits. -/
theorem unpackRows_spec (width pitch : Nat) (hw : width ≤ pitch * 8) :
    ∀ rs : List (List (Fin 256)),
      ∃ data, unpackRows rs width pitch = some data ∧
        data.length = rs.length * width ∧
        ∀ r i : Nat, r < rs.length → i < width →
          data.getD (r * width + i) false =
            (beVal (rs.getD r [])).testBit (pitch * 8 - 1 - i) := by
  intro rs
  induction rs with
  | nil => exact ⟨[], rfl, by simp, fun r i hr _ => absurd hr (by simp)⟩
  | cons row rest ih =>
    obtain ⟨bits, hbits, hblen, hbval⟩ := rowBits_some row width pitch hw
    obtain ⟨data, hdata, hdlen, hdval⟩ := ih
    refine ⟨bits ++ data, ?_, ?_, ?_⟩
    · rw [unpackRows, hbits, hdata]
    · rw [List.length_append, hblen, hdlen, List.length_cons]
      ring
    · intro r i hr hi
      cases r with
      | zero =>
        rw [Nat.zero_mul, Nat.zero_add, List.getD_eq_getElem?_getD,
          List.getElem?_append_left (by omega), ← List.getD_eq_getElem?_getD]
        exact hbval i hi
      | succ r =>
        have hidx : (r + 1) * width + i = bits.length + (r * width + i) := by
          rw [hblen, Nat.succ_mul]
          omega
        rw [List.getD_eq_getElem?_getD, hidx,
          List.getElem?_append_right (by omega), Nat.add_sub_cancel_left,
          ← List.getD_eq_getElem?_getD]
        have hr' : r < rest.length := by
          rw [List.length_cons] at hr
          omega
        exact hdval r i hr' hi

/-- With enough fuel, `chunksFuel` splits a buffer of length `n * pitch`
into `n` complete rows. -/
theorem chunksFuel_spec (pitch : Nat) (hp : 0 < pitch) :
    ∀ (n fuel : Nat) (l : List (Fin 256)), l.length = n * pitch →
      l.length ≤ fuel →
      (chunksFuel fuel l pitch).length = n ∧
      ∀ t : Nat, t < n →
        (chunksFuel fuel l pitch).getD t [] =
          (l.drop (t * pitch)).take pitch := by
  intro n
  induction n with
  | zero =>
    intro fuel l hl _
    have : l = [] := List.eq_nil_of_length_eq_zero (by omega)
    subst this
    cases fuel with
    | zero => exact ⟨rfl, fun t ht => absurd ht (by omega)⟩
    | succ f =>
      rw [chunksFuel, if_pos (by right; simpa using hp)]
      exact ⟨rfl, fun t ht => absurd ht (by omega)⟩
  | succ n ih =>
    intro fuel l hl hfuel
    have hlp : pitch ≤ l.length := by
      rw [hl]
      calc pitch = 1 * pitch := by ring
        _ ≤ (n + 1) * pitch := mul_le_mul_right' (by omega) pitch
    cases fuel with
    | zero => omega
    | succ f =>
      rw [chunksFuel, if_neg (by omega)]
      have hdl : (l.drop pitch).length = n * pitch := by
        rw [List.length_drop, hl, Nat.succ_mul]
        omega
      obtain ⟨ihlen, ihval⟩ := ih f (l.drop pitch) hdl
        (by rw [List.length_drop]; omega)
      refine ⟨by rw [List.length_cons, ihlen], fun t ht => ?_⟩
      cases t with
      | zero =>
        rw [Nat.zero_mul, List.drop_zero]
        rfl
      | succ t =>
        have hcons : (List.take pitch l ::
            chunksFuel f (List.drop pitch l) pitch).getD (t + 1) [] =
            (chunksFuel f (List.drop pitch l) pitch).getD t [] := rfl
        rw [hcons, ihval t (by omega), List.drop_drop]
        have hmul : pitch + t * pitch = (t + 1) * pitch := by ring
        rw [hmul]

/-- Successful unpack: buffer consistent with `rows * pitch` and every row
wide enough (`width ≤ pitch*8`). -/
theorem unpack_some (buffer : List (Fin 256)) (width rows pitch : Nat)
    (hlen : buffer.length = rows * pitch) (hw : width ≤ pitch * 8) :
    ∃ data, unpack_mono_bitmap buffer width rows pitch = some data ∧
      data.length = rows * width ∧
      ∀ r i : Nat, r < rows → i < width →
        data.getD (r * width + i) false =
          (beVal ((buffer.drop (r * pitch)).take pitch)).testBit
            (pitch * 8 - 1 - i) := by
  by_cases hp : pitch = 0
  · subst hp
    have hw0 : width = 0 := by omega
    subst hw0
    have hb : buffer = [] := List.eq_nil_of_length_eq_zero (by omega)
    subst hb
    refine ⟨[], ?_, by simp, fun r i _ hi => absurd hi (by omega)⟩
    unfold unpack_mono_bitmap
    rw [if_pos hlen]
    show (if ([] : List Bool).length = rows * 0 then some [] else none) =
      some []
    rw [if_pos (by simp)]
  · have hp' : 0 < pitch := Nat.pos_of_ne_zero hp
    obtain ⟨clen, cval⟩ :=
      chunksFuel_spec pitch hp' rows buffer.length buffer hlen (le_refl _)
    obtain ⟨data, hdata, hdlen, hdval⟩ := unpackRows_spec width pitch hw
      (chunksFuel buffer.length buffer pitch)
    refine ⟨data, ?_, by rw [hdlen, clen], fun r i hr hi => ?_⟩
    · unfold unpack_mono_bitmap chunks
      rw [if_pos hlen, hdata]
      dsimp only
      rw [if_pos (by rw [hdlen, clen])]
    · rw [hdval r i (by rw [clen]; exact hr) hi, cval r hr]

/-- The first `assert` of `unpack_mono_bitmap`: inconsistent buffer length
fails. -/
theorem unpack_none_of_length (buffer : List (Fin 256))
    (width rows pitch : Nat) (h : buffer.length ≠ rows * pitch) :
    unpack_mono_bitmap buffer width rows pitch = none := by
  unfold unpack_mono_bitmap
  rw [if_neg h]

/-- With at least one row and too few bits per row (`pitch*8 < width`),
unpacking fails (on the per-row assert for `pitch ≥ 1`, on the final
length assert for `pitch = 0`). -/
theorem unpack_none_of_narrow (buffer : List (Fin 256))
    (width rows pitch : Nat) (hlen : buffer.length = rows * pitch)
    (hr : 0 < rows) (hw : pitch * 8 < width) :
    unpack_mono_bitmap buffer width rows pitch = none := by
  by_cases hp : pitch = 0
  · subst hp
    have hb : buffer = [] := List.eq_nil_of_length_eq_zero (by omega)
    subst hb
    unfold unpack_mono_bitmap
    rw [if_pos hlen]
    show (if ([] : List Bool).length = rows * width then some [] else none) =
      none
    have hpos := Nat.mul_pos hr (show 0 < width by omega)
    rw [if_neg (show ¬(([] : List Bool).length = rows * width) from by
      simp only [List.length_nil]
      exact (ne_of_gt hpos).symm)]
  · have hp' : 0 < pitch := Nat.pos_of_ne_zero hp
    obtain ⟨clen, cval⟩ :=
      chunksFuel_spec pitch hp' rows buffer.length buffer hlen (le_refl _)
    unfold unpack_mono_bitmap chunks
    rw [if_pos hlen]
    cases hcl : chunksFuel buffer.length buffer pitch with
    | nil =>
      rw [hcl] at clen
      simp at clen
      omega
    | cons c cs =>
      rw [unpackRows, rowBits_none c width pitch hw]

/-- Zero rows always succeeds with an empty result (for a consistent,
hence empty, buffer), whatever `width` and `pitch` are. -/
theorem unpack_rows_zero (buffer : List (Fin 256)) (width pitch : Nat)
    (hlen : buffer.length = 0 * pitch) :
    unpack_mono_bitmap buffer width 0 pitch = some [] := by
  have hb : buffer = [] := List.eq_nil_of_length_eq_zero (by omega)
  subst hb
  unfold unpack_mono_bitmap
  rw [if_pos hlen]
  show (if ([] : List Bool).length = 0 * width then some [] else none) =
    some []
  rw [if_pos (by simp)]

/-- Any glyph produced by `glyph_for_character` has the derived metrics of
`Glyph.__init__`, which are clamped to be non-negative. -/
theorem glyph_for_character_metrics (f : Face) (c : Char) (g : Glyph)
    (h : glyph_for_character f c = some g) :
    0 ≤ g.ascent ∧ 0 ≤ g.descent := by
  unfold glyph_for_character at h
  cases hslot : f.glyphs c with
  | none => rw [hslot] at h; exact absurd h (by simp)
  | some slot =>
    rw [hslot] at h
    dsimp only at h
    unfold Glyph.from_glyphslot at h
    cases hunp : unpack_mono_bitmap slot.buffer slot.width slot.rows
        slot.pitch with
    | none => rw [hunp] at h; exact absurd h (by simp)
    | some pixels =>
      rw [hunp] at h
      injection h with h
      subst h
      exact ⟨le_max_left 0 _, le_max_left 0 _⟩

theorem text_dimensions_nil (f : Face) :
    text_dimensions f [] = some (0, 0, 0) := by
  unfold text_dimensions textDimLoop
  rfl

theorem kerning_offset_none_zero (f : Face) (c : Char)
    (hk : f.kern none c = 0) : kerning_offset f none c = 0 := by
  unfold kerning_offset
  rw [hk]
  decide

theorem text_dimensions_single (f : Face) (c : Char) (g : Glyph)
    (hg : glyph_for_character f c = some g) (hk : f.kern none c = 0) :
    text_dimensions f [c] =
      some (max g.advance_width g.bitmap.width, g.ascent + g.descent,
        g.descent) := by
  obtain ⟨ha, hd⟩ := glyph_for_character_metrics f c g hg
  unfold text_dimensions
  simp only [textDimLoop, hg, kerning_offset_none_zero f c hk]
  simp only [Option.some.injEq, Prod.mk.injEq]
  refine ⟨by omega, by omega, by omega⟩

/-- The render loop splits over list append: after consuming `t1` the
cursor has moved by exactly the accumulated pen advance of `t1` (the sum
of its kerning offsets and advance widths) and the previous character is
the last character of `t1`. -/
theorem renderLoop_append (f : Face) (h bl : Int) :
    ∀ (t1 rest : List Char) (x : Int) (prev : Option Char) (buf : Bitmap)
      (s : Int), penAdvance f prev t1 = some s →
      renderLoop f h bl (t1 ++ rest) x prev buf =
        (renderLoop f h bl t1 x prev buf).bind
          (fun buf2 =>
            renderLoop f h bl rest (x + s) (lastPrev prev t1) buf2) := by
  intro t1
  induction t1 with
  | nil =>
    intro rest x prev buf s hs
    rw [penAdvance] at hs
    injection hs with hs
    subst hs
    rw [List.nil_append, lastPrev, renderLoop, add_zero]
    rfl
  | cons c t1' ih =>
    intro rest x prev buf s hs
    rw [penAdvance] at hs
    cases hgc : glyph_for_character f c with
    | none => rw [hgc] at hs; exact absurd hs (by simp)
    | some gc =>
      rw [hgc] at hs
      dsimp only at hs
      cases hpa : penAdvance f (some c) t1' with
      | none => rw [hpa] at hs; exact absurd hs (by simp)
      | some s' =>
        rw [hpa] at hs
        dsimp only at hs
        injection hs with hs
        rw [List.cons_append, renderLoop, renderLoop, hgc, lastPrev]
        dsimp only
        cases hblit : buf.bitblt gc.bitmap (x + kerning_offset f prev c)
            (h - gc.ascent - bl) with
        | none => rfl
        | some buf1 =>
          dsimp only
          rw [ih rest (x + kerning_offset f prev c + gc.advance_width)
            (some c) buf1 s' hpa]
          dsimp only [Option.bind]
          have hx : x + kerning_offset f prev c + gc.advance_width + s' =
              x + s := by omega
          rw [hx]

/-- C8. In `render_text`, each glyph is composited at the horizontal
offset equal to the sum of all previous glyphs' advance widths plus the
accumulated kerning offsets: for any text `t1 ++ c :: t2`, writing `s`
for the pen advance accumulated over the predecessors `t1` (the sum of
each predecessor's kerning offset — `kerning_offset f none` for the very
first character — and advance width), the glyph of `c` is blitted at
`x = s + kerning(last of t1, c)`, and the rest of the text continues from
`x + advance_width(c)`. -/
theorem render_text_offset_sum (f : Face) (t1 t2 : List Char) (c : Char)
    (g : Glyph) (w h bl s : Int)
    (hg : glyph_for_character f c = some g)
    (hs : penAdvance f none t1 = some s) :
    render_text f (t1 ++ c :: t2) (some w) (some h) (some bl) =
      (renderLoop f h bl t1 0 none (mkBitmap w h)).bind (fun buf =>
        (buf.bitblt g.bitmap (s + kerning_offset f (lastPrev none t1) c)
            (h - g.ascent - bl)).bind (fun buf2 =>
          renderLoop f h bl t2
            (s + kerning_offset f (lastPrev none t1) c + g.advance_width)
            (some c) buf2)) := by
  show renderLoop f h bl (t1 ++ c :: t2) 0 none (mkBitmap w h) = _
  rw [renderLoop_append f h bl t1 (c :: t2) 0 none (mkBitmap w h) s hs]
  refine congrArg _ (funext fun buf => ?_)
  rw [renderLoop, hg, zero_add]
  dsimp only
  cases hblit : buf.bitblt g.bitmap
      (s + kerning_offset f (lastPrev none t1) c) (h - g.ascent - bl) with
  | none => rfl
  | some buf2 => rfl

/-- C9. Compositing is idempotent: if `bitblt` completes on a canvas, then
compositing the same source at the same offset onto the result completes
and changes nothing, so blitting twice equals blitting once.  This holds
for arbitrary offsets (every write only ORs a source value in, and the
second pass re-reads the same indices). -/
theorem bitblt_idempotent (dest src : Bitmap) (x y : Int) (d2 : Bitmap)
    (h : dest.bitblt src x y = some d2) : d2.bitblt src x y = some d2 := by
  rw [bitblt_eq] at h
  cases hrun : blitRows dest.pixels src.pixels 0 (y * dest.width + x)
      src.width.toNat (dest.width - src.width) src.height.toNat with
  | none => rw [hrun] at h; exact absurd h (by simp)
  | some pl =>
    rw [hrun] at h
    dsimp only [Option.map] at h
    injection h with h
    subst h
    rw [bitblt_eq]
    show (blitRows pl src.pixels 0 (y * dest.width + x) src.width.toNat
      (dest.width - src.width) src.height.toNat).map _ = _
    rw [blitRows_fix _ hrun (Extends.refl pl)]
    rfl

/-- C10. A source bitmap with zero width or zero height makes `bitblt` a
total no-op at every offset, however far out of range: no pixel index is
ever formed, no error is raised, and the destination is returned with its
pixels untouched. -/
theorem bitblt_empty_source_noop (dest src : Bitmap) (x y : Int)
    (h : src.width = 0 ∨ src.height = 0) :
    dest.bitblt src x y = some dest := by
  rw [bitblt_eq]
  rcases h with hw | hh
  · have hw0 : src.width.toNat = 0 := by omega
    rw [hw0, blitRows_sw_zero]
    rfl
  · have hh0 : src.height.toNat = 0 := by omega
    rw [hh0, blitRows]
    rfl

/-- C1 (amended). `bitblt` performs no clipping: compositing the 2x2
all-true source at (-1, 0) onto a 2x2 blank canvas sets ALL FOUR pixels
(the negative flat index wraps, Python-style, to the end of the pixel
buffer), an offset whose flat index reaches `width*height` raises
`IndexError` (`none`), and any `bitblt` that does complete keeps the
canvas's width, height and pixel count. -/
theorem bitblt_no_clipping :
    ((mkBitmap 2 2).bitblt (Bitmap.mk 2 2 [true, true, true, true]) (-1) 0 =
      some (Bitmap.mk 2 2 [true, true, true, true])) ∧
    ((mkBitmap 2 2).bitblt (Bitmap.mk 1 1 [true]) 0 2 = none) ∧
    (∀ (dest src : Bitmap) (x y : Int) (d2 : Bitmap),
      dest.bitblt src x y = some d2 →
      d2.width = dest.width ∧ d2.height = dest.height ∧
        d2.pixels.length = dest.pixels.length) :=
  ⟨by decide, by decide, fun _ _ _ _ _ h => bitblt_dims h⟩

theorem bitblt_no_clipping_witness :
    (Bitmap.mk 2 2 [true, true, true, true]).width = (mkBitmap 2 2).width ∧
    (Bitmap.mk 2 2 [true, true, true, true]).height = (mkBitmap 2 2).height ∧
    (Bitmap.mk 2 2 [true, true, true, true]).pixels.length =
      (mkBitmap 2 2).pixels.length :=
  bitblt_no_clipping.2.2 (mkBitmap 2 2)
    (Bitmap.mk 2 2 [true, true, true, true]) (-1) 0
    (Bitmap.mk 2 2 [true, true, true, true]) (by decide)

/-- C1 counterexample. The claim's scenario is false on the code:
compositing the 2x2 all-true source at (-1, 0) onto a 2x2 blank canvas
does NOT leave column 1 unaffected — the result is all-true, not
`[true, false, true, false]` — and a fully out-of-range offset does raise
an error instead of being silently clipped. -/
theorem bitblt_clipping_counterexample :
    ((mkBitmap 2 2).bitblt (Bitmap.mk 2 2 [true, true, true, true]) (-1) 0 =
      some (Bitmap.mk 2 2 [true, true, true, true])) ∧
    (some (Bitmap.mk 2 2 [true, true, true, true]) ≠
      some (Bitmap.mk 2 2 [true, false, true, false])) ∧
    ((mkBitmap 2 2).bitblt (Bitmap.mk 1 1 [true]) 0 2 = none) := by
  decide

/-- C2. For every consistent buffer (`len = rows*pitch`, `width ≤ pitch*8`)
`unpack_mono_bitmap` succeeds with exactly `rows*width` booleans in
row-major order, entry `(r, i)` being bit `pitch*8 - 1 - i` (MSB-first) of
row `r`'s bytes read as a big-endian integer; and the trailing padding
bits have no effect: any buffer agreeing on those tested bits unpacks to
the same result. -/
theorem unpack_rowmajor_msb (buffer : List (Fin 256))
    (width rows pitch : Nat) (hlen : buffer.length = rows * pitch)
    (hw : width ≤ pitch * 8) :
    ∃ data, unpack_mono_bitmap buffer width rows pitch = some data ∧
      data.length = rows * width ∧
      (∀ r i : Nat, r < rows → i < width →
        data.getD (r * width + i) false =
          (beVal ((buffer.drop (r * pitch)).take pitch)).testBit
            (pitch * 8 - 1 - i)) ∧
      (∀ buffer2 : List (Fin 256), buffer2.length = rows * pitch →
        (∀ r i : Nat, r < rows → i < width →
          (beVal ((buffer2.drop (r * pitch)).take pitch)).testBit
              (pitch * 8 - 1 - i) =
            (beVal ((buffer.drop (r * pitch)).take pitch)).testBit
              (pitch * 8 - 1 - i)) →
        unpack_mono_bitmap buffer2 width rows pitch = some data) := by
  obtain ⟨data, hd, hdlen, hdval⟩ :=
    unpack_some buffer width rows pitch hlen hw
  refine ⟨data, hd, hdlen, hdval, fun buffer2 hlen2 hsame => ?_⟩
  obtain ⟨data2, hd2, hdlen2, hdval2⟩ :=
    unpack_some buffer2 width rows pitch hlen2 hw
  have heq : data2 = data := by
    by_cases hwz : width = 0
    · subst hwz
      have h1 : data = [] := List.eq_nil_of_length_eq_zero (by omega)
      have h2 : data2 = [] := List.eq_nil_of_length_eq_zero (by omega)
      rw [h1, h2]
    · have hw0 : 0 < width := Nat.pos_of_ne_zero hwz
      refine getD_ext (by rw [hdlen2, hdlen]) (fun j hj => ?_)
      rw [hdlen2] at hj
      have hr : j / width < rows :=
        Nat.div_lt_of_lt_mul (by rw [Nat.mul_comm]; exact hj)
      have hi : j % width < width := Nat.mod_lt _ hw0
      have hdecomp : (j / width) * width + j % width = j := by
        rw [Nat.mul_comm]
        exact Nat.div_add_mod j width
      rw [← hdecomp, hdval2 _ _ hr hi, hdval _ _ hr hi, hsame _ _ hr hi]
  rw [heq] at hd2
  exact hd2

theorem unpack_rowmajor_msb_witness :
    (unpack_mono_bitmap [(176 : Fin 256)] 4 1 1 =
      some [true, false, true, true]) ∧
    (∃ data, unpack_mono_bitmap [(176 : Fin 256)] 4 1 1 = some data ∧
      data.length = 1 * 4) :=
  ⟨by decide,
    (unpack_rowmajor_msb [(176 : Fin 256)] 4 1 1 (by decide)
      (by decide)).elim (fun data hd => ⟨data, hd.1, hd.2.1⟩)⟩

/-- C3 (amended). The `Bitmap` constructor never fails: there is no
`InvalidDimensions` check in the code.  For any integer sizes it returns a
bitmap with the requested width and height and `max 0 (width*height)`
pixels; when both sizes are non-negative, all `width*height` pixels are
`False`. -/
theorem bitmap_init_total (w h : Int) :
    mkBitmap w h = Bitmap.mk w h (List.replicate (w * h).toNat false) ∧
    (0 ≤ w → 0 ≤ h → (mkBitmap w h).pixels.length = (w * h).toNat ∧
      ∀ p ∈ (mkBitmap w h).pixels, p = false) := by
  refine ⟨rfl, fun _ _ => ⟨?_, ?_⟩⟩
  · show (List.replicate (w * h).toNat false).length = (w * h).toNat
    exact List.length_replicate _ _
  · intro p hp
    exact List.eq_of_mem_replicate hp

theorem bitmap_init_total_witness :
    (mkBitmap 2 3 = Bitmap.mk 2 3 (List.replicate ((2 : Int) * 3).toNat
      false)) ∧
    (mkBitmap 2 3).pixels.length = ((2 : Int) * 3).toNat ∧
    ∀ p ∈ (mkBitmap 2 3).pixels, p = false :=
  ⟨(bitmap_init_total 2 3).1, ((bitmap_init_total 2 3).2 (by decide)
    (by decide)).1, ((bitmap_init_total 2 3).2 (by decide) (by decide)).2⟩

/-- C3 counterexample. Constructing a bitmap with negative width does NOT
fail: `Bitmap(-1, 5)` succeeds and yields a bitmap with width -1 and an
empty pixel list (`range` of the negative product is empty); no
`InvalidDimensions` error exists in the code. -/
theorem bitmap_init_negative_counterexample :
    mkBitmap (-1) 5 = Bitmap.mk (-1) 5 [] ∧ (mkBitmap (-1) 5).width = -1 := by
  decide

/-- C4 (amended). The derived metrics of a glyph with non-negative bitmap
height are clamped non-negative, and when `0 ≤ top ≤ height` (the glyph
does not start below the baseline) they satisfy
`ascent + descent = height`.  (For negative `top` the sum exceeds the
height, so the claim's `top ≤ height` guard alone is not enough.) -/
theorem glyph_metrics_amended (pixels : List Bool)
    (width height top advance_width : Int) (_hh : 0 ≤ height) :
    0 ≤ (Glyph.make pixels width height top advance_width).ascent ∧
    0 ≤ (Glyph.make pixels width height top advance_width).descent ∧
    (0 ≤ top → top ≤ height →
      (Glyph.make pixels width height top advance_width).ascent +
        (Glyph.make pixels width height top advance_width).descent =
        height) := by
  dsimp [Glyph.make, Bitmap.init]
  omega

theorem glyph_metrics_amended_witness :
    0 ≤ (Glyph.make [] 0 2 1 0).ascent ∧
    0 ≤ (Glyph.make [] 0 2 1 0).descent ∧
    (Glyph.make [] 0 2 1 0).ascent + (Glyph.make [] 0 2 1 0).descent = 2 :=
  ⟨(glyph_metrics_amended [] 0 2 1 0 (by decide)).1,
   (glyph_metrics_amended [] 0 2 1 0 (by decide)).2.1,
   (glyph_metrics_amended [] 0 2 1 0 (by decide)).2.2 (by decide) (by decide)⟩

/-- C4 counterexample. A glyph with height 2 and top -1 has `top ≤ height`
but `ascent + descent = 3 ≠ 2`: descent = max(0, 2-(-1)) = 3 while
ascent = max(0, max(-1,2) - 3) = 0, so the sum does not span the glyph
height. -/
theorem glyph_metrics_counterexample :
    (Glyph.make [] 0 2 (-1) 0).top ≤ (Glyph.make [] 0 2 (-1) 0).bitmap.height ∧
    (Glyph.make [] 0 2 (-1) 0).bitmap.height = 2 ∧
    (Glyph.make [] 0 2 (-1) 0).ascent + (Glyph.make [] 0 2 (-1) 0).descent =
      3 := by
  decide

/-- C5. `text_dimensions` of the empty string is `(0, 0, 0)`; for a single
character whose glyph loads, with the external face reporting kerning 0
against an undefined previous character, it returns width
`max advance_width glyph_width`, height `ascent + descent`, and baseline
`descent`. -/
theorem text_dimensions_empty_and_single (f : Face) (c : Char) (g : Glyph)
    (hg : glyph_for_character f c = some g) (hk : f.kern none c = 0) :
    text_dimensions f [] = some (0, 0, 0) ∧
    text_dimensions f [c] =
      some (max g.advance_width g.bitmap.width, g.ascent + g.descent,
        g.descent) :=
  ⟨text_dimensions_nil f, text_dimensions_single f c g hg hk⟩

theorem text_dimensions_empty_and_single_witness :
    text_dimensions demoFace [] = some (0, 0, 0) ∧
    text_dimensions demoFace [Char.ofNat 65] =
      some (max demoGlyph.advance_width demoGlyph.bitmap.width,
        demoGlyph.ascent + demoGlyph.descent, demoGlyph.descent) :=
  text_dimensions_empty_and_single demoFace (Char.ofNat 65) demoGlyph
    (by decide) rfl

/-- C6 (amended). `unpack_mono_bitmap` fails exactly when the buffer length
differs from `rows*pitch`, or when there is AT LEAST ONE ROW and
`pitch*8 < width`; a consistent buffer with `width = 0` or `rows = 0`
succeeds with the empty sequence (in particular `rows = 0` succeeds even
when `pitch*8 < width`, which the unamended claim would call a failure). -/
theorem unpack_failure_characterization (buffer : List (Fin 256))
    (width rows pitch : Nat) :
    (unpack_mono_bitmap buffer width rows pitch = none ↔
      (buffer.length ≠ rows * pitch ∨ (0 < rows ∧ pitch * 8 < width))) ∧
    (buffer.length = rows * pitch → (width = 0 ∨ rows = 0) →
      unpack_mono_bitmap buffer width rows pitch = some []) := by
  constructor
  · constructor
    · intro hnone
      by_cases hlen : buffer.length = rows * pitch
      · by_cases hrows : rows = 0
        · subst hrows
          rw [unpack_rows_zero buffer width pitch hlen] at hnone
          exact absurd hnone (by simp)
        · by_cases hw : width ≤ pitch * 8
          · obtain ⟨data, hd, _, _⟩ :=
              unpack_some buffer width rows pitch hlen hw
            rw [hd] at hnone
            exact absurd hnone (by simp)
          · exact Or.inr ⟨Nat.pos_of_ne_zero hrows, by omega⟩
      · exact Or.inl hlen
    · rintro (h | ⟨hr, hw⟩)
      · exact unpack_none_of_length buffer width rows pitch h
      · by_cases hlen : buffer.length = rows * pitch
        · exact unpack_none_of_narrow buffer width rows pitch hlen hr hw
        · exact unpack_none_of_length buffer width rows pitch hlen
  · intro hlen hwz
    rcases hwz with rfl | rfl
    · obtain ⟨data, hd, hdlen, _⟩ :=
        unpack_some buffer 0 rows pitch hlen (by omega)
      have hnil : data = [] := List.eq_nil_of_length_eq_zero (by omega)
      rw [hnil] at hd
      exact hd
    · exact unpack_rows_zero buffer width pitch hlen

theorem unpack_failure_characterization_witness :
    ((unpack_mono_bitmap ([] : List (Fin 256)) 0 0 0 = none) ↔
      (([] : List (Fin 256)).length ≠ 0 * 0 ∨ (0 < 0 ∧ 0 * 8 < 0))) ∧
    unpack_mono_bitmap ([] : List (Fin 256)) 0 0 0 = some [] :=
  ⟨(unpack_failure_characterization [] 0 0 0).1,
   (unpack_failure_characterization [] 0 0 0).2 (by decide) (Or.inl rfl)⟩

/-- C6 counterexample. With `rows = 0` and `pitch*8 < width` and a
consistent (empty) buffer, unpacking SUCCEEDS with the empty sequence — it
does not fail — so "fails exactly when buffer length differs from
rows*pitch or pitch*8 < width" is false as stated. -/
theorem unpack_failure_counterexample :
    unpack_mono_bitmap ([] : List (Fin 256)) 9 0 1 = some [] ∧
    ([] : List (Fin 256)).length = 0 * 1 ∧ 1 * 8 < 9 := by
  decide

theorem bitblt_in_bounds_frame_witness :
    ∃ d2, (mkBitmap 2 2).bitblt (Bitmap.mk 1 1 [true]) 1 0 = some d2 ∧
      d2.width = (mkBitmap 2 2).width ∧ d2.height = (mkBitmap 2 2).height :=
  (bitblt_in_bounds_frame (mkBitmap 2 2) (Bitmap.mk 1 1 [true]) 1 0
    ⟨by decide, by decide, by decide⟩ ⟨by decide, by decide, by decide⟩
    (by decide) (by decide) (by decide)
    (by decide)).elim (fun d2 h => ⟨d2, h.1, h.2.1, h.2.2.1⟩)

theorem render_text_offset_sum_witness :
    (penAdvance kernFace none [Char.ofNat 65] = some 10 ∧
      (10 : Int) + kerning_offset kernFace (lastPrev none [Char.ofNat 65])
        (Char.ofNat 66) = 8 ∧ (8 : Int) ≠ 10) ∧
    render_text kernFace [Char.ofNat 65, Char.ofNat 66] (some 12) (some 1)
        (some 0) =
      (renderLoop kernFace 1 0 [Char.ofNat 65] 0 none (mkBitmap 12 1)).bind
        (fun buf =>
          (buf.bitblt kernGlyph.bitmap
              (10 + kerning_offset kernFace (lastPrev none [Char.ofNat 65])
                (Char.ofNat 66)) (1 - kernGlyph.ascent - 0)).bind
            (fun buf2 =>
              renderLoop kernFace 1 0 []
                (10 + kerning_offset kernFace
                  (lastPrev none [Char.ofNat 65]) (Char.ofNat 66) +
                  kernGlyph.advance_width)
                (some (Char.ofNat 66)) buf2)) :=
  ⟨by decide, render_text_offset_sum kernFace [Char.ofNat 65] []
    (Char.ofNat 66) kernGlyph 12 1 0 10 (by decide) (by decide)⟩

theorem bitblt_idempotent_witness :
    (Bitmap.mk 1 1 [true]).bitblt (Bitmap.mk 1 1 [true]) 0 0 =
      some (Bitmap.mk 1 1 [true]) :=
  bitblt_idempotent (mkBitmap 1 1) (Bitmap.mk 1 1 [true]) 0 0
    (Bitmap.mk 1 1 [true]) (by decide)

theorem bitblt_empty_source_noop_witness :
    (mkBitmap 2 2).bitblt (Bitmap.mk 0 5 []) (-7) 100 = some (mkBitmap 2 2) :=
  bitblt_empty_source_noop (mkBitmap 2 2) (Bitmap.mk 0 5 []) (-7) 100
    (Or.inl rfl)
